import Mathlib

/-!
Verification development for the sentence-plagiarism repository.

The Python sources are embedded shallowly:

* Python strings are `List Char` (indexing is by code point, as in Python).
* Python float scores are modelled as rationals (all scores arising in the
  program are ratios of integers, so this is exact).
* Python `set` is `Finset`.
* Python slices `s[a:b]` are modelled by `pySlice` (on `Int` indices, with
  the clamping and negative-index rules of Python) and `pySliceN` (the
  common non-negative case).
* fallible constructors return `Except`.

Embedded components:
* `text_to_sentences` - `_text_to_sentences` from
  `sentence_plagiarism/plagiarism_checker.py` (regex split points are
  expanded into an explicit per-position predicate).
* the seven similarity functions from `sentence_plagiarism/similarity.py`.
* `cross_check_sentences` - `_cross_check_sentences` from
  `plagiarism_checker.py` (set-based metric dispatch).
* `mkPlagiarismMatch` - the dataclass validation in
  `sentence_plagiarism/visualization/models.py`.
* `split_text_into_segments` - the sweep in
  `sentence_plagiarism/visualization/text_processing.py`.
-/

/-- Python whitespace test, restricted to the ASCII whitespace characters
that both the regex class and the string methods of the source agree on. -/
def pyIsSpace (c : Char) : Bool :=
  c == ' ' || c == '\t' || c == '\n' || c == '\x0d' || c == '\x0b' || c == '\x0c'

/-- Python word character (regex class over its ASCII core): alphanumeric or
underscore. -/
def pyIsWord (c : Char) : Bool :=
  c.isAlphanum || c == '_'

/-- Sentence-terminating punctuation from the split regex alternation. -/
def isSentTerm (c : Char) : Bool :=
  c == '.' || c == '?' || c == '!'

/-- ASCII uppercase class of the split regex. -/
def isUpperAZ (c : Char) : Bool :=
  'A' ≤ c && c ≤ 'Z'

/-- ASCII lowercase class of the split regex. -/
def isLowerAZ (c : Char) : Bool :=
  'a' ≤ c && c ≤ 'z'

/-- Character of a text at an index (the source only reads in-range indices;
the default is irrelevant there). -/
def getC (s : List Char) (i : Nat) : Char :=
  s.getD i 'x'

/-- Python slice `s[a:b]` for non-negative bounds: both are clamped to the
length, an empty list results when the range is reversed. -/
def pySliceN (s : List Char) (a b : Nat) : List Char :=
  (s.drop a).take (b - a)

/-- Python slice `s[a:b]` with full Python index semantics: negative indices
count from the end, then both bounds are clamped to `[0, len]`. -/
def pySlice (s : List Char) (a b : Int) : List Char :=
  let n : Int := s.length
  let a2 : Int := if a < 0 then max (n + a) 0 else min a n
  let b2 : Int := if b < 0 then max (n + b) 0 else min b n
  (s.drop a2.toNat).take (b2.toNat - a2.toNat)

/-- One split point of the sentence regex of `_text_to_sentences`: position
`i` holds a whitespace character preceded by sentence-ending punctuation,
and neither negative lookbehind fires.  The first lookbehind excludes a
word-dot-word-anychar context (the any-char of the regex excludes a
newline), the second excludes an uppercase-lowercase-dot abbreviation. -/
def isSplitPoint (text : List Char) (i : Nat) : Bool :=
  pyIsSpace (getC text i) &&
  (1 ≤ i && isSentTerm (getC text (i - 1))) &&
  !(4 ≤ i && pyIsWord (getC text (i - 4)) && getC text (i - 3) == '.' &&
      pyIsWord (getC text (i - 2)) && getC text (i - 1) != '\n') &&
  !(3 ≤ i && isUpperAZ (getC text (i - 3)) && isLowerAZ (getC text (i - 2)) &&
      getC text (i - 1) == '.')

/-- All split offsets of the text: each regex hit at whitespace position `i`
contributes the offset `i + 1`, in increasing order as `re.finditer` does. -/
def splitPositions (text : List Char) : List Nat :=
  ((List.range text.length).filter (fun i => isSplitPoint text i)).map (· + 1)

/-- The while-loop of `_text_to_sentences` advancing `start` past leading
whitespace while `start < end`, written with explicit fuel `e - s`. -/
def skipSpacesFuel (text : List Char) (e : Nat) : Nat → Nat → Nat
  | 0, s => s
  | f + 1, s =>
    if s < e && pyIsSpace (getC text s) then skipSpacesFuel text e f (s + 1) else s

/-- Entry point of the whitespace-skipping loop. -/
def skipLeadingSpaces (text : List Char) (s e : Nat) : Nat :=
  skipSpacesFuel text e (e - s) s

/-- The extraction loop of `_text_to_sentences` over consecutive pairs of
the positions list.  `end` is `positions[i+1] - 1`; the Python fix-up of
`-1` to `0` coincides with truncated subtraction on `Nat`.  A sentence that
is entirely whitespace (in particular an empty one) is discarded, exactly
as the `strip` test of the source does. -/
def extractSentences (text : List Char) : List Nat → List (List Char × Nat × Nat)
  | p :: q :: rest =>
    let e := q - 1
    let s := skipLeadingSpaces text p e
    let sent := pySliceN text s (e + 1)
    let tail := extractSentences text (q :: rest)
    if sent.all pyIsSpace then tail else (sent, s, e) :: tail
  | _ => []

/-- `_text_to_sentences` of `plagiarism_checker.py`: split the text into
sentences together with their inclusive start and end offsets. -/
def text_to_sentences (text : List Char) : List (List Char × Nat × Nat) :=
  extractSentences text (0 :: (splitPositions text ++ [text.length]))

lemma extractSentences_slice (text : List Char) :
    ∀ ps s a b, (s, a, b) ∈ extractSentences text ps →
      pySliceN text a (b + 1) = s := by
  intro ps
  induction ps with
  | nil => intro s a b h; simp [extractSentences] at h
  | cons p rest ih =>
    cases rest with
    | nil => intro s a b h; simp [extractSentences] at h
    | cons q rest2 =>
      intro s a b h
      simp only [extractSentences] at h
      by_cases hws : (pySliceN text (skipLeadingSpaces text p (q - 1)) (q - 1 + 1)).all pyIsSpace
      · rw [if_pos hws] at h
        exact ih s a b h
      · rw [if_neg hws] at h
        rcases List.mem_cons.mp h with heq | htail
        · obtain ⟨h1, h2, h3⟩ := Prod.mk.injEq .. ▸ heq
          subst h1
          cases heq
          rfl
        · exact ih s a b htail

/-- Claim C2: every sentence produced by the segmenter reproduces the slice
of the input at its recorded offsets: `text[start:end+1]` equals the
sentence text exactly, under the inclusive-offset convention of the
implementation. -/
theorem text_to_sentences_offsets (text s : List Char) (a b : Nat)
    (h : (s, a, b) ∈ text_to_sentences text) :
    pySliceN text a (b + 1) = s :=
  extractSentences_slice text _ s a b h

/-- Witness for C2 on the text used by the sentence-splitting examples:
the two produced sentences and their offsets are evaluated concretely and
the offset property is discharged at the first of them. -/
theorem text_to_sentences_offsets_witness :
    (("Ala has a cat. ".toList, 0, 14) ∈
        text_to_sentences "Ala has a cat. Ola too.".toList) ∧
      pySliceN "Ala has a cat. Ola too.".toList 0 (14 + 1) =
        "Ala has a cat. ".toList :=
  ⟨by decide,
    text_to_sentences_offsets "Ala has a cat. Ola too.".toList
      "Ala has a cat. ".toList 0 14 (by decide)⟩

/-- Token type of the match finder: a lower-cased word, i.e. a Python
string. -/
abbrev Tok : Type := List Char

/-- Python `str.lower`, on the ASCII core that the tokenizer regex of the
source exercises. -/
def pyLower (s : List Char) : List Char :=
  s.map Char.toLower

/-- Maximal runs of word characters of a string: the successive matches of
the `\b\w+\b` pattern used by `_cross_check_sentences` to tokenize. -/
def wordRuns : List Char → List (List Char)
  | [] => []
  | c :: rest =>
    let rs := wordRuns rest
    if pyIsWord c then
      match rest with
      | [] => [[c]]
      | d :: _ =>
        if pyIsWord d then
          match rs with
          | r :: rs2 => (c :: r) :: rs2
          | [] => [[c]]
        else [c] :: rs
    else rs

/-- The token set of a sentence in `_cross_check_sentences`:
`set(re.findall(r"\b\w+\b", sentence.lower()))`. -/
def tokens (s : List Char) : Finset Tok :=
  (wordRuns (pyLower s)).toFinset

/-- `jaccard_similarity` from `similarity.py`: intersection size over union
size, `0.0` when the union is empty. -/
def jaccard_similarity {α : Type} [DecidableEq α] (set1 set2 : Finset α) : ℚ :=
  let intersection : ℕ := (set1 ∩ set2).card
  let union : ℕ := (set1 ∪ set2).card
  if union ≠ 0 then (intersection : ℚ) / (union : ℚ) else 0

/-- `cosine_similarity` from `similarity.py`: intersection size over the
product of the two set sizes, `0.0` when that product is zero. -/
def cosine_similarity {α : Type} [DecidableEq α] (set1 set2 : Finset α) : ℚ :=
  let intersection : ℕ := (set1 ∩ set2).card
  if set1.card * set2.card ≠ 0 then
    (intersection : ℚ) / ((set1.card : ℚ) * (set2.card : ℚ))
  else 0

/-- `sorensen_dice_similarity` from `similarity.py`. -/
def sorensen_dice_similarity {α : Type} [DecidableEq α] (set1 set2 : Finset α) : ℚ :=
  let intersection : ℕ := (set1 ∩ set2).card
  let denominator : ℕ := set1.card + set2.card
  if denominator ≠ 0 then 2 * (intersection : ℚ) / (denominator : ℚ) else 0

/-- `overlap_similarity` from `similarity.py`. -/
def overlap_similarity {α : Type} [DecidableEq α] (set1 set2 : Finset α) : ℚ :=
  let intersection : ℕ := (set1 ∩ set2).card
  let denominator : ℕ := min set1.card set2.card
  if denominator ≠ 0 then (intersection : ℚ) / (denominator : ℚ) else 0

/-- `tversky_similarity` from `similarity.py`; the Python default for
`alpha` is `0.5` and call sites below pass it explicitly. -/
def tversky_similarity {α : Type} [DecidableEq α] (set1 set2 : Finset α)
    (alpha : ℚ) : ℚ :=
  let intersection : ℕ := (set1 ∩ set2).card
  let denominator : ℚ :=
    (intersection : ℚ) + alpha * ((set1.card : ℚ) - (intersection : ℚ)) +
      (1 - alpha) * ((set2.card : ℚ) - (intersection : ℚ))
  if denominator ≠ 0 then (intersection : ℚ) / denominator else 0

/-- The character-collecting loop of `jaro_similarity`: for each indexed
character of the first string, the source slices a window out of the second
string and, when the character occurs in the window, appends the character
to the first list and the window element at the first occurrence index to
the second list.  Characters of the second string are never marked as
used.  The window bound `max(0, i - d)` is written `(i - d).toNat` and
`min(i + d + 1, len2)` as a truncation to `Nat` followed by `min`; both
agree with the Python expressions since `d` is at least `-1`. -/
def jaroLoop (s2 : List Char) (d : Int) (len2 : Nat) :
    List (Nat × Char) → List Char × List Char
  | [] => ([], [])
  | (i, c) :: rest =>
    let lo : Nat := ((i : Int) - d).toNat
    let hi : Nat := min (((i : Int) + d + 1).toNat) len2
    let w := pySliceN s2 lo hi
    let r := jaroLoop s2 d len2 rest
    if c ∈ w then (c :: r.1, w.getD (w.indexOf c) 'x' :: r.2) else r

/-- `jaro_similarity` from `similarity.py`, including its integer match
distance (which may be `-1`), its window slicing, and its transposition
count over the two collected character lists (floor-halved). -/
def jaro_similarity (s1 s2 : List Char) : ℚ :=
  let len1 := s1.length
  let len2 := s2.length
  let d : Int := ((max len1 len2 / 2 : ℕ) : Int) - 1
  let common := jaroLoop s2 d len2 s1.enum
  let m := common.1.length
  if m = 0 then 0
  else
    let t : ℕ := ((common.1.zip common.2).countP (fun p => p.1 != p.2)) / 2
    ((m : ℚ) / (len1 : ℚ) + (m : ℚ) / (len2 : ℚ) + ((m : ℚ) - (t : ℚ)) / (m : ℚ)) / 3

/-- The prefix-length loop of `jaro_winkler_similarity`: count of leading
equal characters, with no cap. -/
def commonPrefixLen : List Char → List Char → Nat
  | a :: as, b :: bs => if a = b then 1 + commonPrefixLen as bs else 0
  | _, _ => 0

/-- `jaro_winkler_similarity` from `similarity.py`; the Python default for
the boost factor `p` is `0.1` and call sites below pass it explicitly. -/
def jaro_winkler_similarity (s1 s2 : List Char) (p : ℚ) : ℚ :=
  let jaro_sim := jaro_similarity s1 s2
  (jaro_sim + (commonPrefixLen s1 s2 : ℚ) * p * (1 - jaro_sim))

lemma card_inter_le_left {α : Type} [DecidableEq α] (s t : Finset α) :
    (s ∩ t).card ≤ s.card :=
  Finset.card_le_card (Finset.inter_subset_left)

lemma card_inter_le_right {α : Type} [DecidableEq α] (s t : Finset α) :
    (s ∩ t).card ≤ t.card :=
  Finset.card_le_card (Finset.inter_subset_right)

/-- Claim C7: each set-based similarity metric, in the degenerate case
where its denominator is zero because one or both sides are empty, returns
`0.0` instead of dividing by zero: jaccard, sorensen-dice and tversky with
both sets empty, cosine and overlap with either set empty. -/
theorem metrics_degenerate_zero (s : Finset Tok) :
    jaccard_similarity (∅ : Finset Tok) ∅ = 0 ∧
    cosine_similarity (∅ : Finset Tok) s = 0 ∧
    cosine_similarity s (∅ : Finset Tok) = 0 ∧
    sorensen_dice_similarity (∅ : Finset Tok) ∅ = 0 ∧
    overlap_similarity (∅ : Finset Tok) s = 0 ∧
    overlap_similarity s (∅ : Finset Tok) = 0 ∧
    tversky_similarity (∅ : Finset Tok) ∅ (1 / 2) = 0 := by
  refine ⟨?_, ?_, ?_, ?_, ?_, ?_, ?_⟩ <;>
    simp [jaccard_similarity, cosine_similarity, sorensen_dice_similarity,
      overlap_similarity, tversky_similarity]

/-- Claim C10: tversky similarity at its default `alpha = 0.5` agrees with
sorensen-dice similarity on all finite token sets, including the degenerate
empty case where both return zero. -/
theorem tversky_eq_sorensen (s1 s2 : Finset Tok) :
    tversky_similarity s1 s2 (1 / 2) = sorensen_dice_similarity s1 s2 := by
  simp only [tversky_similarity, sorensen_dice_similarity]
  have hd : ((s1 ∩ s2).card : ℚ) + 1 / 2 * ((s1.card : ℚ) - ((s1 ∩ s2).card : ℚ)) +
      (1 - 1 / 2) * ((s2.card : ℚ) - ((s1 ∩ s2).card : ℚ)) =
      ((s1.card : ℚ) + (s2.card : ℚ)) / 2 := by ring
  rw [hd]
  by_cases h : s1.card + s2.card = 0
  · have h2 : ((s1.card : ℚ) + (s2.card : ℚ)) / 2 = 0 := by
      have := congrArg (fun n : ℕ => (n : ℚ)) h
      push_cast at this
      rw [this]
      norm_num
    rw [if_neg (by simpa using h2), if_neg (by simpa using h)]
  · have h2 : ((s1.card : ℚ) + (s2.card : ℚ)) ≠ 0 := by
      exact_mod_cast fun hc => h (by exact_mod_cast hc)
    have h3 : ((s1.card : ℚ) + (s2.card : ℚ)) / 2 ≠ 0 := by
      intro hc
      exact h2 (by linarith [hc])
    rw [if_pos h3, if_pos (by simpa using h)]
    have hcast : ((s1.card + s2.card : ℕ) : ℚ) = (s1.card : ℚ) + (s2.card : ℚ) := by
      push_cast
      ring
    rw [hcast]
    field_simp
    ring

/-- Claim C9 (amended): each of the five set-based similarity metrics
(jaccard, cosine, sorensen-dice, overlap, and tversky at its default
`alpha = 0.5`) returns a value in the closed interval `[0, 1]` for all
token sets.  The two string metrics are excluded: see the
counterexample. -/
theorem set_metrics_bounded (s1 s2 : Finset Tok) :
    (0 ≤ jaccard_similarity s1 s2 ∧ jaccard_similarity s1 s2 ≤ 1) ∧
    (0 ≤ cosine_similarity s1 s2 ∧ cosine_similarity s1 s2 ≤ 1) ∧
    (0 ≤ sorensen_dice_similarity s1 s2 ∧ sorensen_dice_similarity s1 s2 ≤ 1) ∧
    (0 ≤ overlap_similarity s1 s2 ∧ overlap_similarity s1 s2 ≤ 1) ∧
    (0 ≤ tversky_similarity s1 s2 (1 / 2) ∧ tversky_similarity s1 s2 (1 / 2) ≤ 1) := by
  have hia : ((s1 ∩ s2).card : ℚ) ≤ (s1.card : ℚ) := by
    exact_mod_cast card_inter_le_left s1 s2
  have hib : ((s1 ∩ s2).card : ℚ) ≤ (s2.card : ℚ) := by
    exact_mod_cast card_inter_le_right s1 s2
  have hi0 : (0 : ℚ) ≤ ((s1 ∩ s2).card : ℚ) := by positivity
  refine ⟨?_, ?_, ?_, ?_, ?_⟩
  · simp only [jaccard_similarity]
    by_cases h : (s1 ∪ s2).card = 0
    · simp [h]
    · rw [if_pos h]
      have hu : (0 : ℚ) < ((s1 ∪ s2).card : ℚ) := by
        exact_mod_cast Nat.pos_of_ne_zero h
      have hle : ((s1 ∩ s2).card : ℚ) ≤ ((s1 ∪ s2).card : ℚ) := by
        exact_mod_cast Finset.card_le_card (Finset.inter_subset_union)
      exact ⟨div_nonneg hi0 (le_of_lt hu), (div_le_one hu).mpr hle⟩
  · simp only [cosine_similarity]
    by_cases h : s1.card * s2.card = 0
    · simp [h]
    · rw [if_pos h]
      have ha : 0 < s1.card := Nat.pos_of_ne_zero (fun hc => h (by simp [hc]))
      have hb : 0 < s2.card := Nat.pos_of_ne_zero (fun hc => h (by simp [hc]))
      have hprod : (0 : ℚ) < (s1.card : ℚ) * (s2.card : ℚ) := by positivity
      have hle : ((s1 ∩ s2).card : ℚ) ≤ (s1.card : ℚ) * (s2.card : ℚ) := by
        calc ((s1 ∩ s2).card : ℚ) ≤ (s1.card : ℚ) := hia
        _ = (s1.card : ℚ) * 1 := by ring
        _ ≤ (s1.card : ℚ) * (s2.card : ℚ) := by
            have : (1 : ℚ) ≤ (s2.card : ℚ) := by exact_mod_cast hb
            have h1 : (0 : ℚ) ≤ (s1.card : ℚ) := by positivity
            nlinarith
      exact ⟨div_nonneg hi0 (le_of_lt hprod), (div_le_one hprod).mpr hle⟩
  · simp only [sorensen_dice_similarity]
    by_cases h : s1.card + s2.card = 0
    · simp [h]
    · rw [if_pos h]
      have hu : (0 : ℚ) < ((s1.card + s2.card : ℕ) : ℚ) := by
        exact_mod_cast Nat.pos_of_ne_zero h
      have hle : 2 * ((s1 ∩ s2).card : ℚ) ≤ ((s1.card + s2.card : ℕ) : ℚ) := by
        push_cast
        linarith
      constructor
      · apply div_nonneg _ (le_of_lt hu)
        positivity
      · exact (div_le_one hu).mpr hle
  · simp only [overlap_similarity]
    by_cases h : min s1.card s2.card = 0
    · simp [h]
    · rw [if_pos h]
      have hu : (0 : ℚ) < ((min s1.card s2.card : ℕ) : ℚ) := by
        exact_mod_cast Nat.pos_of_ne_zero h
      have hle : ((s1 ∩ s2).card : ℚ) ≤ ((min s1.card s2.card : ℕ) : ℚ) := by
        have : (s1 ∩ s2).card ≤ min s1.card s2.card :=
          le_min (card_inter_le_left s1 s2) (card_inter_le_right s1 s2)
        exact_mod_cast this
      exact ⟨div_nonneg hi0 (le_of_lt hu), (div_le_one hu).mpr hle⟩
  · simp only [tversky_similarity]
    have hd : ((s1 ∩ s2).card : ℚ) + 1 / 2 * ((s1.card : ℚ) - ((s1 ∩ s2).card : ℚ)) +
        (1 - 1 / 2) * ((s2.card : ℚ) - ((s1 ∩ s2).card : ℚ)) =
        ((s1.card : ℚ) + (s2.card : ℚ)) / 2 := by ring
    rw [hd]
    by_cases h : ((s1.card : ℚ) + (s2.card : ℚ)) / 2 = 0
    · simp [h]
    · rw [if_pos h]
      have hge : (0 : ℚ) ≤ ((s1.card : ℚ) + (s2.card : ℚ)) / 2 := by positivity
      have hpos : (0 : ℚ) < ((s1.card : ℚ) + (s2.card : ℚ)) / 2 :=
        lt_of_le_of_ne hge (Ne.symm h)
      have hle : ((s1 ∩ s2).card : ℚ) ≤ ((s1.card : ℚ) + (s2.card : ℚ)) / 2 := by
        linarith
      exact ⟨div_nonneg hi0 (le_of_lt hpos), (div_le_one hpos).mpr hle⟩

/-- Counterexample for claim C9: the jaro similarity of `"aaaa"` and `"a"`
is `7/6`, strictly greater than `1` - without marking characters of the
second string as used, the same character is matched repeatedly and `m`
exceeds the length of the second string. -/
theorem jaro_exceeds_one :
    jaro_similarity ['a', 'a', 'a', 'a'] ['a'] = 7 / 6 ∧
      ¬ jaro_similarity ['a', 'a', 'a', 'a'] ['a'] ≤ 1 := by
  have hl : jaroLoop ['a']
      (((max (['a', 'a', 'a', 'a'] : List Char).length (['a'] : List Char).length / 2 :
          ℕ) : Int) - 1)
      (['a'] : List Char).length (['a', 'a', 'a', 'a'] : List Char).enum =
      (['a', 'a'], ['a', 'a']) := by decide
  have key : jaro_similarity ['a', 'a', 'a', 'a'] ['a'] = 7 / 6 := by
    simp only [jaro_similarity, hl]
    norm_num
  refine ⟨key, ?_⟩
  rw [key]
  norm_num

/-- The `PlagiarismMatch` dataclass of `visualization/models.py`.  Positions
are Python integers, hence `Int`; the score is a rational. -/
structure PlagiarismMatch where
  input_sentence : List Char
  input_start_pos : Int
  input_end_pos : Int
  reference_sentence : List Char
  reference_start_pos : Int
  reference_end_pos : Int
  reference_document : List Char
  similarity_score : ℚ
deriving DecidableEq

/-- The three validation errors raised by `PlagiarismMatch.__post_init__`,
in source order. -/
inductive MatchError where
  | inputLengthMismatch
  | referenceLengthMismatch
  | scoreOutOfRange
deriving DecidableEq

/-- Construction of a `PlagiarismMatch`, i.e. the dataclass constructor
followed by `__post_init__`: the input length must equal
`input_end_pos - input_start_pos + 1`, the reference length must equal
`reference_end_pos - reference_start_pos + 1`, and the score must satisfy
`0 <= score <= 1`; the checks run in this order and the first failure
raises. -/
def mkPlagiarismMatch (input_sentence : List Char)
    (input_start_pos input_end_pos : Int) (reference_sentence : List Char)
    (reference_start_pos reference_end_pos : Int)
    (reference_document : List Char) (similarity_score : ℚ) :
    Except MatchError PlagiarismMatch :=
  if (input_sentence.length : Int) ≠ input_end_pos - input_start_pos + 1 then
    .error .inputLengthMismatch
  else if (reference_sentence.length : Int) ≠
      reference_end_pos - reference_start_pos + 1 then
    .error .referenceLengthMismatch
  else if ¬ (0 ≤ similarity_score ∧ similarity_score ≤ 1) then
    .error .scoreOutOfRange
  else
    .ok ⟨input_sentence, input_start_pos, input_end_pos, reference_sentence,
      reference_start_pos, reference_end_pos, reference_document,
      similarity_score⟩

/-- Claim C5: constructing a `PlagiarismMatch` succeeds exactly when both
sentence lengths are consistent with their inclusive position ranges and
the score lies in `[0, 1]`; any violation raises a validation error at
construction time, and on success every field holds exactly the supplied
value - nothing is truncated or auto-corrected. -/
theorem mkPlagiarismMatch_spec (is : List Char) (ia ib : Int)
    (rs : List Char) (ra rb : Int) (doc : List Char) (sc : ℚ) :
    ((∃ m, mkPlagiarismMatch is ia ib rs ra rb doc sc = Except.ok m) ↔
      ((is.length : Int) = ib - ia + 1 ∧ (rs.length : Int) = rb - ra + 1 ∧
        0 ≤ sc ∧ sc ≤ 1)) ∧
    ((¬ ((is.length : Int) = ib - ia + 1 ∧ (rs.length : Int) = rb - ra + 1 ∧
        0 ≤ sc ∧ sc ≤ 1)) →
      ∃ e, mkPlagiarismMatch is ia ib rs ra rb doc sc = Except.error e) ∧
    (∀ m, mkPlagiarismMatch is ia ib rs ra rb doc sc = Except.ok m →
      m.input_sentence = is ∧ m.input_start_pos = ia ∧ m.input_end_pos = ib ∧
      m.reference_sentence = rs ∧ m.reference_start_pos = ra ∧
      m.reference_end_pos = rb ∧ m.reference_document = doc ∧
      m.similarity_score = sc) := by
  by_cases hc1 : (is.length : Int) = ib - ia + 1
  · by_cases hc2 : (rs.length : Int) = rb - ra + 1
    · by_cases hc3 : 0 ≤ sc ∧ sc ≤ 1
      · have hok : mkPlagiarismMatch is ia ib rs ra rb doc sc =
            Except.ok ⟨is, ia, ib, rs, ra, rb, doc, sc⟩ := by
          unfold mkPlagiarismMatch
          rw [if_neg (not_not.mpr hc1), if_neg (not_not.mpr hc2),
            if_neg (not_not.mpr hc3)]
        refine ⟨⟨?_, ?_⟩, ?_, ?_⟩
        · intro _
          exact ⟨hc1, hc2, hc3.1, hc3.2⟩
        · intro _
          exact ⟨_, hok⟩
        · intro hnc
          exact absurd ⟨hc1, hc2, hc3.1, hc3.2⟩ hnc
        · intro m hm
          rw [hok] at hm
          cases hm
          exact ⟨rfl, rfl, rfl, rfl, rfl, rfl, rfl, rfl⟩
      · have herr : mkPlagiarismMatch is ia ib rs ra rb doc sc =
            Except.error MatchError.scoreOutOfRange := by
          unfold mkPlagiarismMatch
          rw [if_neg (not_not.mpr hc1), if_neg (not_not.mpr hc2), if_pos hc3]
        refine ⟨⟨?_, ?_⟩, ?_, ?_⟩
        · rintro ⟨m, hm⟩
          rw [herr] at hm
          exact Except.noConfusion hm
        · intro hc
          exact absurd ⟨hc.2.2.1, hc.2.2.2⟩ hc3
        · intro hnc
          exact ⟨_, herr⟩
        · intro m hm
          rw [herr] at hm
          exact Except.noConfusion hm
    · have herr : mkPlagiarismMatch is ia ib rs ra rb doc sc =
          Except.error MatchError.referenceLengthMismatch := by
        unfold mkPlagiarismMatch
        rw [if_neg (not_not.mpr hc1), if_pos hc2]
      refine ⟨⟨?_, ?_⟩, ?_, ?_⟩
      · rintro ⟨m, hm⟩
        rw [herr] at hm
        exact Except.noConfusion hm
      · intro hc
        exact absurd hc.2.1 hc2
      · intro hnc
        exact ⟨_, herr⟩
      · intro m hm
        rw [herr] at hm
        exact Except.noConfusion hm
  · have herr : mkPlagiarismMatch is ia ib rs ra rb doc sc =
        Except.error MatchError.inputLengthMismatch := by
      unfold mkPlagiarismMatch
      rw [if_pos hc1]
    refine ⟨⟨?_, ?_⟩, ?_, ?_⟩
    · rintro ⟨m, hm⟩
      rw [herr] at hm
      exact Except.noConfusion hm
    · intro hc
      exact absurd hc.1 hc1
    · intro hnc
      exact ⟨_, herr⟩
    · intro m hm
      rw [herr] at hm
      exact Except.noConfusion hm

/-- Witness for C5: a fully consistent record constructs successfully and
keeps its score field untouched. -/
theorem mkPlagiarismMatch_spec_witness :
    (∃ m, mkPlagiarismMatch ['a', 'b', 'c'] 0 2 ['d', 'e'] 5 6 ['d'] 1 =
      Except.ok m) ∧
    (∀ m, mkPlagiarismMatch ['a', 'b', 'c'] 0 2 ['d', 'e'] 5 6 ['d'] 1 =
      Except.ok m → m.similarity_score = 1) :=
  ⟨(mkPlagiarismMatch_spec ['a', 'b', 'c'] 0 2 ['d', 'e'] 5 6 ['d'] 1).1.mpr
      ⟨by norm_num, by norm_num, by norm_num, by norm_num⟩,
    fun m hm =>
      ((mkPlagiarismMatch_spec ['a', 'b', 'c'] 0 2 ['d', 'e'] 5 6 ['d'] 1).2.2 m
        hm).2.2.2.2.2.2.2⟩

/-- One similarity record of `_cross_check_sentences`: the dictionary with
the eight fields appended to `results`. -/
structure SimilarityRecord where
  input_sentence : List Char
  input_start_pos : Nat
  input_end_pos : Nat
  reference_sentence : List Char
  reference_start_pos : Nat
  reference_end_pos : Nat
  reference_document : List Char
  similarity_score : ℚ
deriving DecidableEq

/-- The set-based similarity metrics the match finder can dispatch to by
name.  The two string metrics of the module are omitted here: the finder
always passes token sets, on which the string metrics are not even
well-typed (see claim C4). -/
inductive SetMetric where
  | jaccard
  | cosine
  | sorensenDice
  | overlap
  | tversky
deriving DecidableEq

/-- Metric dispatch (`locals()[similarity_metric]`), with the Python
default `alpha = 0.5` for tversky. -/
def applyMetric : SetMetric → Finset Tok → Finset Tok → ℚ
  | .jaccard => fun a b => jaccard_similarity a b
  | .cosine => fun a b => cosine_similarity a b
  | .sorensenDice => fun a b => sorensen_dice_similarity a b
  | .overlap => fun a b => overlap_similarity a b
  | .tversky => fun a b => tversky_similarity a b (1 / 2)

/-- `_cross_check_sentences` of `plagiarism_checker.py`: the cross product
of input sentences with every sentence of every reference document, in
input-major order; both sides are tokenized to lower-cased word sets, and
a record is appended exactly when the metric score is strictly above the
threshold. -/
def cross_check_sentences (input_sents : List (List Char × Nat × Nat))
    (ref_doc_sents : List (List Char × List (List Char × Nat × Nat)))
    (similarity_threshold : ℚ) (metric : SetMetric) : List SimilarityRecord :=
  input_sents.flatMap (fun isd =>
    ref_doc_sents.flatMap (fun docPair =>
      docPair.2.filterMap (fun rsd =>
        let score := applyMetric metric (tokens isd.1) (tokens rsd.1)
        if score > similarity_threshold then
          some ⟨isd.1, isd.2.1, isd.2.2, rsd.1, rsd.2.1, rsd.2.2,
            docPair.1, score⟩
        else none)))

lemma mem_cross_check (input_sents : List (List Char × Nat × Nat))
    (ref_doc_sents : List (List Char × List (List Char × Nat × Nat)))
    (t : ℚ) (metric : SetMetric) (r : SimilarityRecord) :
    r ∈ cross_check_sentences input_sents ref_doc_sents t metric ↔
      ∃ isd ∈ input_sents, ∃ docPair ∈ ref_doc_sents, ∃ rsd ∈ docPair.2,
        applyMetric metric (tokens isd.1) (tokens rsd.1) > t ∧
        r = ⟨isd.1, isd.2.1, isd.2.2, rsd.1, rsd.2.1, rsd.2.2, docPair.1,
          applyMetric metric (tokens isd.1) (tokens rsd.1)⟩ := by
  simp only [cross_check_sentences, List.mem_flatMap, List.mem_filterMap]
  constructor
  · rintro ⟨isd, hisd, docPair, hdoc, rsd, hrsd, hsome⟩
    by_cases hgt : applyMetric metric (tokens isd.1) (tokens rsd.1) > t
    · rw [if_pos hgt] at hsome
      have heq := Option.some.inj hsome
      subst heq
      exact ⟨isd, hisd, docPair, hdoc, rsd, hrsd, hgt, rfl⟩
    · rw [if_neg hgt] at hsome
      exact Option.noConfusion hsome
  · rintro ⟨isd, hisd, docPair, hdoc, rsd, hrsd, hgt, hr⟩
    refine ⟨isd, hisd, docPair, hdoc, rsd, hrsd, ?_⟩
    rw [if_pos hgt, hr]

/-- Claim C3 (amended): a sentence identical to a reference sentence has
identical token sets, and under each set-based metric other than cosine
(jaccard, sorensen-dice, overlap, tversky at its default) the score of the
pair is `1` whenever the token set is non-empty; a record is emitted only
when the score strictly exceeds the threshold, and for those metrics the
identical pair is emitted whenever the threshold is below `1`.  Cosine is
excluded: on identical token sets it returns the reciprocal of the token
count (see the counterexample). -/
theorem identical_sentence_match (s : List Char) (hs : tokens s ≠ ∅) :
    (jaccard_similarity (tokens s) (tokens s) = 1 ∧
      sorensen_dice_similarity (tokens s) (tokens s) = 1 ∧
      overlap_similarity (tokens s) (tokens s) = 1 ∧
      tversky_similarity (tokens s) (tokens s) (1 / 2) = 1) ∧
    (∀ inputs refs (t : ℚ) metric (r : SimilarityRecord),
      r ∈ cross_check_sentences inputs refs t metric →
      applyMetric metric (tokens r.input_sentence)
        (tokens r.reference_sentence) > t) ∧
    (∀ inputs refs (t : ℚ) (metric : SetMetric) a b doc reflist a2 b2,
      metric ≠ SetMetric.cosine →
      (s, a, b) ∈ inputs → (doc, reflist) ∈ refs → (s, a2, b2) ∈ reflist →
      t < 1 →
      (⟨s, a, b, s, a2, b2, doc, 1⟩ : SimilarityRecord) ∈
        cross_check_sentences inputs refs t metric) := by
  have hn : ((tokens s).card : ℚ) ≠ 0 := by
    have : (tokens s).card ≠ 0 := fun hc => hs (Finset.card_eq_zero.mp hc)
    exact_mod_cast this
  have hjac : jaccard_similarity (tokens s) (tokens s) = 1 := by
    simp only [jaccard_similarity, Finset.inter_self, Finset.union_self]
    rw [if_pos (by exact_mod_cast hn)]
    exact div_self hn
  have hsor : sorensen_dice_similarity (tokens s) (tokens s) = 1 := by
    simp only [sorensen_dice_similarity, Finset.inter_self]
    rw [if_pos (by
      intro hc
      exact hn (by exact_mod_cast Nat.eq_zero_of_add_eq_zero_right hc))]
    push_cast
    field_simp
    ring
  have hove : overlap_similarity (tokens s) (tokens s) = 1 := by
    simp only [overlap_similarity, Finset.inter_self, min_self]
    rw [if_pos (by exact_mod_cast hn)]
    exact div_self hn
  have htve : tversky_similarity (tokens s) (tokens s) (1 / 2) = 1 := by
    simp only [tversky_similarity, Finset.inter_self]
    have hd : ((tokens s).card : ℚ) +
        1 / 2 * (((tokens s).card : ℚ) - ((tokens s).card : ℚ)) +
        (1 - 1 / 2) * (((tokens s).card : ℚ) - ((tokens s).card : ℚ)) =
        ((tokens s).card : ℚ) := by ring
    rw [hd, if_pos hn]
    exact div_self hn
  refine ⟨⟨hjac, hsor, hove, htve⟩, ?_, ?_⟩
  · intro inputs refs t metric r hr
    rw [mem_cross_check] at hr
    rcases hr with ⟨isd, _, docPair, _, rsd, _, hgt, hrec⟩
    subst hrec
    exact hgt
  · intro inputs refs t metric a b doc reflist a2 b2 hmet hin hdoc href ht
    have hsc : applyMetric metric (tokens s) (tokens s) = 1 := by
      cases metric with
      | jaccard => exact hjac
      | cosine => exact absurd rfl hmet
      | sorensenDice => exact hsor
      | overlap => exact hove
      | tversky => exact htve
    rw [mem_cross_check]
    refine ⟨(s, a, b), hin, (doc, reflist), hdoc, (s, a2, b2), href, ?_, ?_⟩
    · rw [hsc]
      exact ht
    · rw [hsc]

/-- The sentence of the C3 counterexample; it has three distinct tokens. -/
def c3sent : List Char := "this is plagiarism.".toList

/-- Counterexample for claim C3: on a sentence identical to itself with
three distinct tokens the cosine metric of the source scores `1/3`, not
`1.0` (the implementation divides by the product of the set sizes, not by
the product of their square roots), and at threshold `1/2 < 1` the match
finder emits nothing for the pair. -/
theorem cosine_identical_counterexample :
    cosine_similarity (tokens c3sent) (tokens c3sent) = 1 / 3 ∧
    (1 / 3 : ℚ) ≠ 1 ∧
    ((1 : ℚ) / 2 < 1) ∧
    cross_check_sentences [(c3sent, 0, 18)] [(['r'], [(c3sent, 0, 18)])]
      (1 / 2) SetMetric.cosine = [] := by
  have hcard : (tokens c3sent).card = 3 := by decide
  have hcos : cosine_similarity (tokens c3sent) (tokens c3sent) = 1 / 3 := by
    simp only [cosine_similarity, Finset.inter_self, hcard]
    norm_num
  refine ⟨hcos, by norm_num, by norm_num, ?_⟩
  rw [List.eq_nil_iff_forall_not_mem]
  intro r hr
  rw [mem_cross_check] at hr
  rcases hr with ⟨isd, hisd, docPair, hdoc, rsd, hrsd, hgt, _⟩
  rw [List.mem_singleton] at hisd hdoc
  subst hisd
  subst hdoc
  rw [List.mem_singleton] at hrsd
  subst hrsd
  simp only [applyMetric] at hgt
  rw [hcos] at hgt
  norm_num at hgt

lemma filterMap_length_mono {α β : Type} (f g : α → Option β) (l : List α)
    (h : ∀ a ∈ l, (f a).isSome = true → (g a).isSome = true) :
    (l.filterMap f).length ≤ (l.filterMap g).length := by
  induction l with
  | nil => simp
  | cons a l ih =>
    have hrest := ih (fun x hx => h x (List.mem_cons_of_mem a hx))
    have hhead := h a (List.mem_cons_self a l)
    cases hf : f a with
    | none =>
      cases hg : g a with
      | none => simpa [List.filterMap_cons, hf, hg] using hrest
      | some c =>
        simp only [List.filterMap_cons, hf, hg, List.length_cons]
        exact Nat.le_succ_of_le hrest
    | some b =>
      cases hg : g a with
      | none =>
        rw [hf] at hhead
        rw [hg] at hhead
        simp at hhead
      | some c =>
        simp only [List.filterMap_cons, hf, hg, List.length_cons]
        exact Nat.succ_le_succ hrest

/-- Claim C8: for a fixed corpus (same input sentences, reference
sentences and metric), the match finder emits at least as many records at
a lower threshold as at a higher one. -/
theorem cross_check_threshold_mono
    (inputs : List (List Char × Nat × Nat))
    (refs : List (List Char × List (List Char × Nat × Nat)))
    (metric : SetMetric) (t1 t2 : ℚ) (h : t1 ≤ t2) :
    (cross_check_sentences inputs refs t2 metric).length ≤
      (cross_check_sentences inputs refs t1 metric).length := by
  unfold cross_check_sentences
  rw [List.length_flatMap, List.length_flatMap]
  apply List.sum_le_sum
  intro isd _
  simp only [Function.comp_apply]
  rw [List.length_flatMap, List.length_flatMap]
  apply List.sum_le_sum
  intro docPair _
  simp only [Function.comp_apply]
  apply filterMap_length_mono
  intro rsd _ hsome
  by_cases hgt : applyMetric metric (tokens isd.1) (tokens rsd.1) > t2
  · rw [if_pos (lt_of_le_of_lt h hgt)]
    rfl
  · rw [if_neg hgt] at hsome
    simp at hsome

/-- Witness for C8 at a concrete corpus and thresholds 0 and 1/2. -/
theorem cross_check_threshold_mono_witness :
    ((0 : ℚ) ≤ 1 / 2) ∧
    (cross_check_sentences [("aaa bbb".toList, 0, 6)]
        [(['r'], [("aaa ccc".toList, 0, 6)])] (1 / 2) SetMetric.jaccard).length ≤
      (cross_check_sentences [("aaa bbb".toList, 0, 6)]
        [(['r'], [("aaa ccc".toList, 0, 6)])] 0 SetMetric.jaccard).length :=
  ⟨by norm_num,
    cross_check_threshold_mono [("aaa bbb".toList, 0, 6)]
      [(['r'], [("aaa ccc".toList, 0, 6)])] SetMetric.jaccard 0 (1 / 2)
      (by norm_num)⟩

/-- Witness for C3 (amended) at the three-token sentence: the token set is
non-empty and jaccard scores the identical pair at `1`. -/
theorem identical_sentence_match_witness :
    (tokens c3sent ≠ ∅) ∧
      jaccard_similarity (tokens c3sent) (tokens c3sent) = 1 :=
  ⟨by decide, (identical_sentence_match c3sent (by decide)).1.1⟩

/-- Modelled from the spec: one step of the canonical Jaro matching; scan
the window `[lo, hi)` of the second string for the first not-yet-used
position holding the wanted character. -/
def canonicalFindIdx (s2 : List Char) (used : List Bool) (c : Char)
    (lo hi : Nat) : Option Nat :=
  (List.range' lo (hi - lo)).find? (fun j => !(used.getD j true) && (s2.getD j 'x' == c))

/-- Modelled from the spec: the canonical Jaro sweep over the indexed
characters of the first string; every matched position of the second
string is marked used, so each character of the second string is usable at
most once.  Returns the matched characters of the first string in order
together with the final usage flags of the second string. -/
def canonicalSweep (s2 : List Char) (d : Int) :
    List (Nat × Char) → List Bool → List Char × List Bool
  | [], used => ([], used)
  | (i, c) :: rest, used =>
    let lo : Nat := ((i : Int) - d).toNat
    let hi : Nat := min (((i : Int) + d + 1).toNat) s2.length
    match canonicalFindIdx s2 used c lo hi with
    | some j =>
      let r := canonicalSweep s2 d rest (used.set j true)
      (c :: r.1, r.2)
    | none => canonicalSweep s2 d rest used

/-- Modelled from the spec: the canonical Jaro similarity - match window
`max(len1,len2)//2 - 1`, characters match only if equal and within the
window with each character of the second string usable at most once, and
transpositions are the mismatched paired matched characters (first-string
matches in first-string order against second-string matches in
second-string order) divided by two. -/
def jaroCanonicalSpec (s1 s2 : List Char) : ℚ :=
  let len1 := s1.length
  let len2 := s2.length
  let d : Int := ((max len1 len2 / 2 : ℕ) : Int) - 1
  let r := canonicalSweep s2 d s1.enum (List.replicate len2 false)
  let m := r.1.length
  if m = 0 then 0
  else
    let s2matched := (s2.enum.filter (fun p => r.2.getD p.1 false)).map Prod.snd
    let t : ℕ := ((r.1.zip s2matched).countP (fun p => p.1 != p.2)) / 2
    ((m : ℚ) / (len1 : ℚ) + (m : ℚ) / (len2 : ℚ) + ((m : ℚ) - (t : ℚ)) / (m : ℚ)) / 3

/-- Claim C4 (code bug evidence): on the very pair used by the skipped test
of the repository, the source `jaro_similarity` returns `1` while the
canonical algorithm described by the spec returns `17/18` (which rounds to
the `0.9444` the test expects).  The source never marks characters of the
second string as used and its collected character lists are always equal,
so its transposition count is always zero; moreover `_cross_check_sentences`
passes token sets, not strings, to the metric. -/
theorem jaro_not_canonical :
    jaro_similarity "martha".toList "marhta".toList = 1 ∧
    jaroCanonicalSpec "martha".toList "marhta".toList = 17 / 18 ∧
    (1 : ℚ) ≠ 17 / 18 := by
  have hl : jaroLoop "marhta".toList
      (((max "martha".toList.length "marhta".toList.length / 2 : ℕ) : Int) - 1)
      "marhta".toList.length "martha".toList.enum =
      ("martha".toList, "martha".toList) := by decide
  have hc : canonicalSweep "marhta".toList
      (((max "martha".toList.length "marhta".toList.length / 2 : ℕ) : Int) - 1)
      "martha".toList.enum (List.replicate "marhta".toList.length false) =
      ("martha".toList, [true, true, true, true, true, true]) := by decide
  refine ⟨?_, ?_, by norm_num⟩
  · simp only [jaro_similarity, hl]
    norm_num
  · have ht : List.countP (fun (p : Char × Char) => p.1 != p.2)
        ((['m', 'a', 'r', 't', 'h', 'a'] : List Char).zip
          (List.map Prod.snd
            (List.filter
              (fun (p : ℕ × Char) =>
                (([true, true, true, true, true, true] : List Bool)[p.1]?).getD false)
              (['m', 'a', 'r', 'h', 't', 'a'] : List Char).enum))) = 2 := by decide
    simp only [jaroCanonicalSpec, hc]
    norm_num [ht]

/-- Kind of a sweep event of `split_text_into_segments`. -/
inductive EventKind where
  | startK
  | endK
deriving DecidableEq

/-- One entry of the `positions` list of `split_text_into_segments`:
`(match.input_start_pos, "start", match)` or
`(match.input_end_pos, "end", match)`. -/
structure Ev where
  pos : Int
  kind : EventKind
  m : PlagiarismMatch
deriving DecidableEq

/-- The secondary sort key of the source: `0 if x[1] == "end" else 1`. -/
def rankOf : EventKind → Nat
  | .endK => 0
  | .startK => 1

/-- The sort order of the source: by position, and at equal positions end
events before start events. -/
def evLe (a b : Ev) : Prop :=
  a.pos < b.pos ∨ (a.pos = b.pos ∧ rankOf a.kind ≤ rankOf b.kind)

instance : DecidableRel evLe := fun a b => by
  unfold evLe
  infer_instance

lemma evLe_pos {a b : Ev} (h : evLe a b) : a.pos ≤ b.pos := by
  rcases h with h | ⟨h, _⟩
  · exact le_of_lt h
  · exact le_of_eq h

instance : IsTotal Ev evLe where
  total a b := by
    rcases lt_trichotomy a.pos b.pos with h | h | h
    · exact Or.inl (Or.inl h)
    · rcases Nat.le_total (rankOf a.kind) (rankOf b.kind) with hr | hr
      · exact Or.inl (Or.inr ⟨h, hr⟩)
      · exact Or.inr (Or.inr ⟨h.symm, hr⟩)
    · exact Or.inr (Or.inl h)

instance : IsTrans Ev evLe where
  trans a b c hab hbc := by
    rcases hab with h1 | ⟨h1, r1⟩
    · rcases hbc with h2 | ⟨h2, _⟩
      · exact Or.inl (lt_trans h1 h2)
      · exact Or.inl (h2 ▸ h1)
    · rcases hbc with h2 | ⟨h2, r2⟩
      · exact Or.inl (h1 ▸ h2)
      · exact Or.inr ⟨h1.trans h2, le_trans r1 r2⟩

/-- The `SegmentType` named tuple of `visualization/text_processing.py`;
the `end` field is called `stop` and the `matches` field `matchList`
because both names are reserved in Lean. -/
structure SegmentType where
  start : Int
  stop : Int
  text : List Char
  matchList : List PlagiarismMatch
deriving DecidableEq

/-- The event loop of `split_text_into_segments`: before each event, if its
position is past the cursor, a segment with a copy of the active list is
emitted; then the active list is updated (a start event appends the match
unless already present, an end event removes its first occurrence if
present) and the cursor moves to the event position.  After the last event
a final segment with an empty match list is emitted if the cursor is short
of the text end. -/
def sweep (content : List Char) :
    List Ev → Int → List PlagiarismMatch → List SegmentType
  | [], cp, _ =>
    if cp < (content.length : Int) then
      [⟨cp, (content.length : Int), pySlice content cp (content.length : Int), []⟩]
    else []
  | e :: rest, cp, active =>
    let pre : List SegmentType :=
      if cp < e.pos then [⟨cp, e.pos, pySlice content cp e.pos, active⟩] else []
    let active2 : List PlagiarismMatch :=
      match e.kind with
      | .startK => if e.m ∈ active then active else active ++ [e.m]
      | .endK => if e.m ∈ active then active.erase e.m else active
    pre ++ sweep content rest e.pos active2

/-- The `positions` list of `split_text_into_segments`, one start and one
end event per match, in match order. -/
def eventsOf (ms : List PlagiarismMatch) : List Ev :=
  ms.flatMap (fun m =>
    [⟨m.input_start_pos, .startK, m⟩, ⟨m.input_end_pos, .endK, m⟩])

/-- The body of `split_text_into_segments` after sorting: the special-cased
leading segment (emitted when the first sorted position is positive,
moving the cursor there) followed by the event loop over the whole sorted
list. -/
def presweep (content : List Char) (sorted : List Ev) : List SegmentType :=
  match sorted with
  | [] => sweep content [] 0 []
  | e :: _ =>
    if 0 < e.pos then
      ⟨0, e.pos, pySlice content 0 e.pos, []⟩ :: sweep content sorted e.pos []
    else sweep content sorted 0 []

/-- `split_text_into_segments` of `visualization/text_processing.py`.  The
source sorts with the stable Python sort under the key
`(position, 0 if end else 1)`; insertion sort under `evLe` computes the
same stable ordering. -/
def split_text_into_segments (content : List Char)
    (ms : List PlagiarismMatch) : List SegmentType :=
  presweep content (List.insertionSort evLe (eventsOf ms))

lemma pySlice_nonneg (s : List Char) (a b : Int) (ha : 0 ≤ a) (hb : 0 ≤ b) :
    pySlice s a b = (s.drop a.toNat).take (b.toNat - a.toNat) := by
  simp only [pySlice]
  rw [if_neg (not_lt.mpr ha), if_neg (not_lt.mpr hb)]
  have hA : (min a (s.length : Int)).toNat = min a.toNat s.length := by omega
  have hB : (min b (s.length : Int)).toNat = min b.toNat s.length := by omega
  rw [hA, hB]
  rcases le_or_lt a.toNat s.length with hal | hal
  · rw [min_eq_left hal]
    rcases le_or_lt b.toNat s.length with hbl | hbl
    · rw [min_eq_left hbl]
    · rw [min_eq_right hbl.le]
      have h1 : (s.drop a.toNat).take (s.length - a.toNat) = s.drop a.toNat :=
        List.take_of_length_le (by rw [List.length_drop])
      have h2 : (s.drop a.toNat).take (b.toNat - a.toNat) = s.drop a.toNat :=
        List.take_of_length_le (by rw [List.length_drop]; omega)
      rw [h1, h2]
  · rw [min_eq_right hal.le]
    have h1 : s.drop s.length = ([] : List Char) := List.drop_eq_nil_of_le le_rfl
    have h2 : s.drop a.toNat = ([] : List Char) := List.drop_eq_nil_of_le hal.le
    rw [h1, h2]
    simp

lemma take_add_drop (l : List Char) (a b : Nat) (hab : a ≤ b) :
    (l.drop a).take (b - a) ++ l.drop b = l.drop a := by
  have hd : l.drop b = (l.drop a).drop (b - a) := by
    rw [List.drop_drop]
    congr 1
    omega
  rw [hd, List.take_append_drop]

lemma sweep_concat (content : List Char) :
    ∀ evts : List Ev, List.Pairwise evLe evts →
      ∀ cp : Int, 0 ≤ cp → (∀ e ∈ evts, cp ≤ e.pos) →
      ∀ active : List PlagiarismMatch,
      ((sweep content evts cp active).map SegmentType.text).flatten =
        content.drop cp.toNat := by
  intro evts
  induction evts with
  | nil =>
    intro _ cp hcp _ active
    simp only [sweep]
    by_cases h : cp < (content.length : Int)
    · rw [if_pos h]
      simp only [List.map_cons, List.map_nil, List.flatten_cons, List.flatten_nil,
        List.append_nil]
      rw [pySlice_nonneg content cp (content.length : Int) hcp
        (by exact_mod_cast Nat.zero_le _)]
      exact List.take_of_length_le (by rw [List.length_drop]; omega)
    · rw [if_neg h]
      simp only [List.map_nil, List.flatten_nil]
      symm
      exact List.drop_eq_nil_of_le (by omega)
  | cons e rest ih =>
    intro hpw cp hcp hbound active
    have hpw2 := (List.pairwise_cons.mp hpw).2
    have hee := (List.pairwise_cons.mp hpw).1
    have hrest : ∀ x ∈ rest, e.pos ≤ x.pos := fun x hx => evLe_pos (hee x hx)
    have hcpe : cp ≤ e.pos := hbound e (List.mem_cons_self e rest)
    have h0e : 0 ≤ e.pos := le_trans hcp hcpe
    simp only [sweep]
    by_cases h : cp < e.pos
    · rw [if_pos h]
      simp only [List.map_append, List.flatten_append, List.map_cons, List.map_nil,
        List.flatten_cons, List.flatten_nil, List.append_nil]
      rw [ih hpw2 e.pos h0e hrest _]
      rw [pySlice_nonneg content cp e.pos hcp h0e]
      exact take_add_drop content cp.toNat e.pos.toNat (by omega)
    · rw [if_neg h]
      simp only [List.nil_append]
      have hcpeq : e.pos = cp := le_antisymm (not_lt.mp h) hcpe
      rw [ih hpw2 e.pos h0e hrest _, hcpeq]

lemma sweep_chain (content : List Char) :
    ∀ evts : List Ev, List.Pairwise evLe evts →
      ∀ cp : Int, (∀ e ∈ evts, cp ≤ e.pos) →
      ∀ active : List PlagiarismMatch,
      List.Chain' (fun s t => s.stop = t.start) (sweep content evts cp active) ∧
      (∀ s ∈ sweep content evts cp active, s.start < s.stop) ∧
      (∀ s, (sweep content evts cp active).head? = some s → s.start = cp) := by
  intro evts
  induction evts with
  | nil =>
    intro _ cp _ active
    simp only [sweep]
    by_cases h : cp < (content.length : Int)
    · rw [if_pos h]
      refine ⟨List.chain'_singleton _, ?_, ?_⟩
      · intro s hs
        rw [List.mem_singleton] at hs
        subst hs
        exact h
      · intro s hs
        rw [List.head?_cons, Option.some.injEq] at hs
        subst hs
        rfl
    · rw [if_neg h]
      exact ⟨List.chain'_nil, by simp, by simp⟩
  | cons e rest ih =>
    intro hpw cp hbound active
    have hpw2 := (List.pairwise_cons.mp hpw).2
    have hee := (List.pairwise_cons.mp hpw).1
    have hrest : ∀ x ∈ rest, e.pos ≤ x.pos := fun x hx => evLe_pos (hee x hx)
    have hcpe : cp ≤ e.pos := hbound e (List.mem_cons_self e rest)
    simp only [sweep]
    by_cases h : cp < e.pos
    · rw [if_pos h]
      rcases ih hpw2 e.pos hrest
        (match e.kind with
          | .startK => if e.m ∈ active then active else active ++ [e.m]
          | .endK => if e.m ∈ active then active.erase e.m else active) with
        ⟨ihc, ihb, ihh⟩
      simp only [List.singleton_append]
      refine ⟨?_, ?_, ?_⟩
      · rw [List.chain'_cons']
        exact ⟨fun y hy => (ihh y hy).symm, ihc⟩
      · intro s hs
        rcases List.mem_cons.mp hs with rfl | hs2
        · exact h
        · exact ihb s hs2
      · intro s hs
        rw [List.head?_cons, Option.some.injEq] at hs
        subst hs
        rfl
    · rw [if_neg h]
      have hcpeq : e.pos = cp := le_antisymm (not_lt.mp h) hcpe
      rcases ih hpw2 e.pos hrest
        (match e.kind with
          | .startK => if e.m ∈ active then active else active ++ [e.m]
          | .endK => if e.m ∈ active then active.erase e.m else active) with
        ⟨ihc, ihb, ihh⟩
      simp only [List.nil_append]
      exact ⟨ihc, ihb, fun s hs => hcpeq ▸ ihh s hs⟩

lemma presweep_nil (content : List Char) :
    presweep content [] = sweep content [] 0 [] := rfl

lemma presweep_cons (content : List Char) (e : Ev) (tail : List Ev) :
    presweep content (e :: tail) =
      if 0 < e.pos then
        ⟨0, e.pos, pySlice content 0 e.pos, []⟩ ::
          sweep content (e :: tail) e.pos []
      else sweep content (e :: tail) 0 [] := rfl

/-- Claim C1: for every document and every match list whose positions point
into the text (non-negative offsets), the segments produced by
`split_text_into_segments`, concatenated in order, reproduce the document
exactly; consecutive segments are contiguous (each stop equals the next
start) and every segment is non-degenerate, so segments never overlap. -/
theorem split_segments_cover (content : List Char) (ms : List PlagiarismMatch)
    (hpos : ∀ m ∈ ms, 0 ≤ m.input_start_pos ∧ 0 ≤ m.input_end_pos) :
    ((split_text_into_segments content ms).map SegmentType.text).flatten =
      content ∧
    List.Chain' (fun s t => s.stop = t.start)
      (split_text_into_segments content ms) ∧
    (∀ s ∈ split_text_into_segments content ms, s.start < s.stop) := by
  have hsort : List.Pairwise evLe (List.insertionSort evLe (eventsOf ms)) :=
    List.sorted_insertionSort evLe (eventsOf ms)
  have hpos' : ∀ e ∈ List.insertionSort evLe (eventsOf ms), 0 ≤ e.pos := by
    intro e he
    have hmem : e ∈ eventsOf ms :=
      (List.perm_insertionSort evLe (eventsOf ms)).mem_iff.mp he
    simp only [eventsOf, List.mem_flatMap] at hmem
    rcases hmem with ⟨m, hm, hev⟩
    rcases hpos m hm with ⟨h1, h2⟩
    rcases List.mem_cons.mp hev with rfl | hev2
    · exact h1
    · rcases List.mem_cons.mp hev2 with rfl | hev3
      · exact h2
      · simp at hev3
  unfold split_text_into_segments
  rcases hK : List.insertionSort evLe (eventsOf ms) with _ | ⟨e, tail⟩
  · rw [presweep_nil]
    refine ⟨?_, ?_, ?_⟩
    · have hc := sweep_concat content [] List.Pairwise.nil 0 le_rfl (by simp) []
      simpa using hc
    · exact (sweep_chain content [] List.Pairwise.nil 0 (by simp) []).1
    · exact (sweep_chain content [] List.Pairwise.nil 0 (by simp) []).2.1
  · rw [hK] at hsort hpos'
    rw [presweep_cons]
    have h0e : 0 ≤ e.pos := hpos' e (List.mem_cons_self e tail)
    have hbound : ∀ x ∈ e :: tail, e.pos ≤ x.pos := by
      intro x hx
      rcases List.mem_cons.mp hx with rfl | hx2
      · exact le_rfl
      · exact evLe_pos ((List.pairwise_cons.mp hsort).1 x hx2)
    by_cases hpe : 0 < e.pos
    · rw [if_pos hpe]
      obtain ⟨hc, hb, hh⟩ := sweep_chain content (e :: tail) hsort e.pos hbound []
      have hconcat := sweep_concat content (e :: tail) hsort e.pos h0e hbound []
      refine ⟨?_, ?_, ?_⟩
      · simp only [List.map_cons, List.flatten_cons]
        rw [hconcat, pySlice_nonneg content 0 e.pos le_rfl h0e]
        simp only [Int.toNat_zero, List.drop_zero, Nat.sub_zero]
        exact List.take_append_drop _ _
      · rw [List.chain'_cons']
        exact ⟨fun y hy => (hh y hy).symm, hc⟩
      · intro s hs
        rcases List.mem_cons.mp hs with rfl | hs2
        · exact hpe
        · exact hb s hs2
    · rw [if_neg hpe]
      have heq : e.pos = 0 := le_antisymm (not_lt.mp hpe) h0e
      have hbound0 : ∀ x ∈ e :: tail, (0 : Int) ≤ x.pos := by
        intro x hx
        rw [← heq]
        exact hbound x hx
      obtain ⟨hc, hb, _⟩ := sweep_chain content (e :: tail) hsort 0 hbound0 []
      have hconcat := sweep_concat content (e :: tail) hsort 0 le_rfl hbound0 []
      exact ⟨by simpa using hconcat, hc, hb⟩

/-- The single match of the C1 witness: inclusive character range 2..4 of a
six character document. -/
def c1match : PlagiarismMatch :=
  ⟨['c', 'd', 'e'], 2, 4, ['c', 'd', 'e'], 0, 2, ['r'], 1⟩

/-- Witness for C1 at a concrete document and match list. -/
theorem split_segments_cover_witness :
    (∀ m ∈ [c1match], 0 ≤ m.input_start_pos ∧ 0 ≤ m.input_end_pos) ∧
    (((split_text_into_segments "abcdef".toList [c1match]).map
        SegmentType.text).flatten = "abcdef".toList ∧
      List.Chain' (fun s t => s.stop = t.start)
        (split_text_into_segments "abcdef".toList [c1match]) ∧
      (∀ s ∈ split_text_into_segments "abcdef".toList [c1match],
        s.start < s.stop)) :=
  ⟨by decide, split_segments_cover "abcdef".toList [c1match] (by decide)⟩

/-- Positional coherence of a sweep event: its position is the start
position of its match for a start event, the end position for an end
event.  Every event built by `eventsOf` satisfies this. -/
def evOk (e : Ev) : Prop :=
  (e.kind = EventKind.startK → e.pos = e.m.input_start_pos) ∧
  (e.kind = EventKind.endK → e.pos = e.m.input_end_pos)

lemma eventsOf_evOk (ms : List PlagiarismMatch) : ∀ e ∈ eventsOf ms, evOk e := by
  intro e he
  simp only [eventsOf, List.mem_flatMap] at he
  rcases he with ⟨m, _, hev⟩
  rcases List.mem_cons.mp hev with rfl | hev2
  · exact ⟨fun _ => rfl, fun hk => EventKind.noConfusion hk⟩
  · rcases List.mem_cons.mp hev2 with rfl | hev3
    · exact ⟨fun hk => EventKind.noConfusion hk, fun _ => rfl⟩
    · simp at hev3

lemma eventsOf_end_mem (ms : List PlagiarismMatch) (m : PlagiarismMatch)
    (hm : m ∈ ms) :
    (⟨m.input_end_pos, EventKind.endK, m⟩ : Ev) ∈ eventsOf ms := by
  simp only [eventsOf, List.mem_flatMap]
  exact ⟨m, hm, by simp⟩

lemma sweep_safe (content : List Char) (m1 m2 : PlagiarismMatch)
    (hne : m1 ≠ m2) (hlt : m1.input_start_pos < m1.input_end_pos)
    (hje : m1.input_end_pos = m2.input_start_pos) :
    ∀ evts : List Ev, List.Pairwise evLe evts → (∀ e ∈ evts, evOk e) →
    ∀ (cp : Int) (active : List PlagiarismMatch), active.Nodup →
    ¬ (m1 ∈ active ∧ m2 ∈ active) →
    (m2 ∈ active → m1 ∉ active ∧
      ∀ f ∈ evts, ¬ (f.kind = EventKind.startK ∧ f.m = m1)) →
    (m1 ∈ active → ∃ f ∈ evts, f.kind = EventKind.endK ∧ f.m = m1) →
    ((∃ f ∈ evts, f.kind = EventKind.startK ∧ f.m = m1) →
      ∃ f ∈ evts, f.kind = EventKind.endK ∧ f.m = m1) →
    ∀ seg ∈ sweep content evts cp active,
      ¬ (m1 ∈ seg.matchList ∧ m2 ∈ seg.matchList) := by
  intro evts
  induction evts with
  | nil =>
    intro _ _ cp active _ _ _ _ _ seg hseg
    simp only [sweep] at hseg
    by_cases h : cp < (content.length : Int)
    · rw [if_pos h] at hseg
      rw [List.mem_singleton] at hseg
      subst hseg
      simp
    · rw [if_neg h] at hseg
      simp at hseg
  | cons e rest ih =>
    intro hpw hok cp active hnd hI hII hIV hV seg hseg
    have hpw2 := (List.pairwise_cons.mp hpw).2
    have hee := (List.pairwise_cons.mp hpw).1
    have hokr : ∀ x ∈ rest, evOk x := fun x hx => hok x (List.mem_cons_of_mem e hx)
    have hoke : evOk e := hok e (List.mem_cons_self e rest)
    simp only [sweep, List.mem_append] at hseg
    rcases hseg with hpre | hrec
    · by_cases h : cp < e.pos
      · rw [if_pos h] at hpre
        rw [List.mem_singleton] at hpre
        subst hpre
        exact hI
      · rw [if_neg h] at hpre
        simp at hpre
    · cases hk : e.kind with
      | startK =>
        simp only [hk] at hrec
        by_cases hem1 : e.m = m1
        · have hm2notin : m2 ∉ active := fun hm2 =>
            (hII hm2).2 e (List.mem_cons_self e rest) ⟨hk, hem1⟩
          have hEnd : ∃ f ∈ rest, f.kind = EventKind.endK ∧ f.m = m1 := by
            rcases hV ⟨e, List.mem_cons_self e rest, hk, hem1⟩ with ⟨f, hf, hfk, hfm⟩
            rcases List.mem_cons.mp hf with rfl | hf2
            · rw [hk] at hfk
              exact EventKind.noConfusion hfk
            · exact ⟨f, hf2, hfk, hfm⟩
          rw [hem1] at hrec
          by_cases hin : m1 ∈ active
          · rw [if_pos hin] at hrec
            exact ih hpw2 hokr e.pos active hnd hI
              (fun hm2 => absurd hm2 hm2notin)
              (fun _ => hEnd) (fun _ => hEnd) seg hrec
          · rw [if_neg hin] at hrec
            have hnd2 : (active ++ [m1]).Nodup := by
              rw [List.nodup_append]
              refine ⟨hnd, List.nodup_singleton m1, ?_⟩
              intro a ha hb
              rw [List.mem_singleton] at hb
              subst hb
              exact hin ha
            have hmem2 : m2 ∉ active ++ [m1] := by
              simp only [List.mem_append, List.mem_singleton]
              rintro (h2 | h2)
              · exact hm2notin h2
              · exact hne h2.symm
            exact ih hpw2 hokr e.pos (active ++ [m1]) hnd2
              (fun hp => hmem2 hp.2)
              (fun hm2 => absurd hm2 hmem2)
              (fun _ => hEnd) (fun _ => hEnd) seg hrec
        · by_cases hem2 : e.m = m2
          · have hepos : e.pos = m1.input_end_pos := by
              rw [hoke.1 hk, hem2, ← hje]
            have hnostart : ∀ f ∈ rest,
                ¬ (f.kind = EventKind.startK ∧ f.m = m1) := by
              rintro f hf ⟨hfk, hfm⟩
              have hfpos : f.pos = m1.input_start_pos := by
                rw [(hokr f hf).1 hfk, hfm]
              rcases hee f hf with hlt2 | ⟨heq2, _⟩
              · rw [hepos, hfpos] at hlt2
                omega
              · rw [hepos, hfpos] at heq2
                omega
            have hm1notin : m1 ∉ active := by
              intro hm1
              rcases hIV hm1 with ⟨f, hf, hfk, hfm⟩
              rcases List.mem_cons.mp hf with rfl | hf2
              · rw [hk] at hfk
                exact EventKind.noConfusion hfk
              · have hfpos : f.pos = m1.input_end_pos := by
                  rw [(hokr f hf2).2 hfk, hfm]
                rcases hee f hf2 with hlt2 | ⟨heq2, hrk⟩
                · rw [hepos, hfpos] at hlt2
                  omega
                · rw [hk, hfk] at hrk
                  simp [rankOf] at hrk
            rw [hem2] at hrec
            by_cases hin : m2 ∈ active
            · rw [if_pos hin] at hrec
              exact ih hpw2 hokr e.pos active hnd hI
                (fun _ => ⟨hm1notin, hnostart⟩)
                (fun hm1 => absurd hm1 hm1notin)
                (fun hs => absurd hs (by
                  rintro ⟨f, hf, hfk, hfm⟩
                  exact hnostart f hf ⟨hfk, hfm⟩)) seg hrec
            · rw [if_neg hin] at hrec
              have hnd2 : (active ++ [m2]).Nodup := by
                rw [List.nodup_append]
                refine ⟨hnd, List.nodup_singleton m2, ?_⟩
                intro a ha hb
                rw [List.mem_singleton] at hb
                subst hb
                exact hin ha
              have hm1notin2 : m1 ∉ active ++ [m2] := by
                simp only [List.mem_append, List.mem_singleton]
                rintro (h2 | h2)
                · exact hm1notin h2
                · exact hne h2
              exact ih hpw2 hokr e.pos (active ++ [m2]) hnd2
                (fun hp => hm1notin2 hp.1)
                (fun _ => ⟨hm1notin2, hnostart⟩)
                (fun hm1 => absurd hm1 hm1notin2)
                (fun hs => absurd hs (by
                  rintro ⟨f, hf, hfk, hfm⟩
                  exact hnostart f hf ⟨hfk, hfm⟩)) seg hrec
          · have hshift : (∃ f ∈ e :: rest,
                f.kind = EventKind.endK ∧ f.m = m1) →
                ∃ f ∈ rest, f.kind = EventKind.endK ∧ f.m = m1 := by
              rintro ⟨f, hf, hfk, hfm⟩
              rcases List.mem_cons.mp hf with rfl | hf2
              · exact absurd hfm hem1
              · exact ⟨f, hf2, hfk, hfm⟩
            have hlift : (∃ f ∈ rest,
                f.kind = EventKind.startK ∧ f.m = m1) →
                ∃ f ∈ e :: rest, f.kind = EventKind.startK ∧ f.m = m1 := by
              rintro ⟨f, hf, hfk, hfm⟩
              exact ⟨f, List.mem_cons_of_mem e hf, hfk, hfm⟩
            by_cases hin : e.m ∈ active
            · rw [if_pos hin] at hrec
              exact ih hpw2 hokr e.pos active hnd hI
                (fun hm2 => ⟨(hII hm2).1,
                  fun f hf => (hII hm2).2 f (List.mem_cons_of_mem e hf)⟩)
                (fun hm1 => hshift (hIV hm1))
                (fun hs => hshift (hV (hlift hs))) seg hrec
            · rw [if_neg hin] at hrec
              have hnd2 : (active ++ [e.m]).Nodup := by
                rw [List.nodup_append]
                refine ⟨hnd, List.nodup_singleton e.m, ?_⟩
                intro a ha hb
                rw [List.mem_singleton] at hb
                subst hb
                exact hin ha
              have hmm1 : m1 ∈ active ++ [e.m] ↔ m1 ∈ active := by
                simp only [List.mem_append, List.mem_singleton]
                constructor
                · rintro (h2 | h2)
                  · exact h2
                  · exact absurd h2.symm hem1
                · exact Or.inl
              have hmm2 : m2 ∈ active ++ [e.m] ↔ m2 ∈ active := by
                simp only [List.mem_append, List.mem_singleton]
                constructor
                · rintro (h2 | h2)
                  · exact h2
                  · exact absurd h2.symm hem2
                · exact Or.inl
              exact ih hpw2 hokr e.pos (active ++ [e.m]) hnd2
                (fun hp => hI ⟨hmm1.mp hp.1, hmm2.mp hp.2⟩)
                (fun hm2 => ⟨fun hm1 => (hII (hmm2.mp hm2)).1 (hmm1.mp hm1),
                  fun f hf => (hII (hmm2.mp hm2)).2 f (List.mem_cons_of_mem e hf)⟩)
                (fun hm1 => hshift (hIV (hmm1.mp hm1)))
                (fun hs => hshift (hV (hlift hs))) seg hrec
      | endK =>
        simp only [hk] at hrec
        by_cases hem1 : e.m = m1
        · have hepos : e.pos = m1.input_end_pos := by
            rw [hoke.2 hk, hem1]
          have hnostart : ∀ f ∈ rest,
              ¬ (f.kind = EventKind.startK ∧ f.m = m1) := by
            rintro f hf ⟨hfk, hfm⟩
            have hfpos : f.pos = m1.input_start_pos := by
              rw [(hokr f hf).1 hfk, hfm]
            rcases hee f hf with hlt2 | ⟨heq2, _⟩
            · rw [hepos, hfpos] at hlt2
              omega
            · rw [hepos, hfpos] at heq2
              omega
          rw [hem1] at hrec
          by_cases hin : m1 ∈ active
          · rw [if_pos hin] at hrec
            have hnd2 : (active.erase m1).Nodup := hnd.erase m1
            have hm1ne : m1 ∉ active.erase m1 := by
              intro hc
              exact ((hnd.mem_erase_iff).mp hc).1 rfl
            exact ih hpw2 hokr e.pos (active.erase m1) hnd2
              (fun hp => hm1ne hp.1)
              (fun _ => ⟨hm1ne, hnostart⟩)
              (fun hm1c => absurd hm1c hm1ne)
              (fun hs => absurd hs (by
                rintro ⟨f, hf, hfk, hfm⟩
                exact hnostart f hf ⟨hfk, hfm⟩)) seg hrec
          · rw [if_neg hin] at hrec
            exact ih hpw2 hokr e.pos active hnd hI
              (fun _ => ⟨hin, hnostart⟩)
              (fun hm1c => absurd hm1c hin)
              (fun hs => absurd hs (by
                rintro ⟨f, hf, hfk, hfm⟩
                exact hnostart f hf ⟨hfk, hfm⟩)) seg hrec
        · have hshift : (∃ f ∈ e :: rest,
              f.kind = EventKind.endK ∧ f.m = m1) →
              ∃ f ∈ rest, f.kind = EventKind.endK ∧ f.m = m1 := by
            rintro ⟨f, hf, hfk, hfm⟩
            rcases List.mem_cons.mp hf with rfl | hf2
            · exact absurd hfm hem1
            · exact ⟨f, hf2, hfk, hfm⟩
          have hlift : (∃ f ∈ rest,
              f.kind = EventKind.startK ∧ f.m = m1) →
              ∃ f ∈ e :: rest, f.kind = EventKind.startK ∧ f.m = m1 := by
            rintro ⟨f, hf, hfk, hfm⟩
            exact ⟨f, List.mem_cons_of_mem e hf, hfk, hfm⟩
          by_cases hin : e.m ∈ active
          · rw [if_pos hin] at hrec
            have hsub : ∀ x, x ∈ active.erase e.m → x ∈ active :=
              fun x hx => List.mem_of_mem_erase hx
            exact ih hpw2 hokr e.pos (active.erase e.m) (hnd.erase e.m)
              (fun hp => hI ⟨hsub _ hp.1, hsub _ hp.2⟩)
              (fun hm2 => ⟨fun hm1 => (hII (hsub _ hm2)).1 (hsub _ hm1),
                fun f hf => (hII (hsub _ hm2)).2 f (List.mem_cons_of_mem e hf)⟩)
              (fun hm1 => hshift (hIV (hsub _ hm1)))
              (fun hs => hshift (hV (hlift hs))) seg hrec
          · rw [if_neg hin] at hrec
            exact ih hpw2 hokr e.pos active hnd hI
              (fun hm2 => ⟨(hII hm2).1,
                fun f hf => (hII hm2).2 f (List.mem_cons_of_mem e hf)⟩)
              (fun hm1 => hshift (hIV hm1))
              (fun hs => hshift (hV (hlift hs))) seg hrec

/-- Claim C6 (amended): end events are processed before start events at
equal positions, and consequently, for two matches of the list with
`m1.input_end_pos = m2.input_start_pos`, no emitted segment lists both
matches together - provided `m1` spans at least two characters
(`m1.input_start_pos < m1.input_end_pos`).  For a single-character `m1`
the property fails: see the counterexample. -/
theorem segments_junction_disjoint (content : List Char)
    (ms : List PlagiarismMatch) (m1 m2 : PlagiarismMatch)
    (h1 : m1 ∈ ms) (h2 : m2 ∈ ms)
    (hje : m1.input_end_pos = m2.input_start_pos)
    (hlt : m1.input_start_pos < m1.input_end_pos) :
    ∀ seg ∈ split_text_into_segments content ms,
      ¬ (m1 ∈ seg.matchList ∧ m2 ∈ seg.matchList) := by
  have hne : m1 ≠ m2 := by
    intro hEq
    rw [← hEq] at hje
    omega
  have hsort : List.Pairwise evLe (List.insertionSort evLe (eventsOf ms)) :=
    List.sorted_insertionSort evLe (eventsOf ms)
  have hok : ∀ e ∈ List.insertionSort evLe (eventsOf ms), evOk e := by
    intro e he
    exact eventsOf_evOk ms e
      ((List.perm_insertionSort evLe (eventsOf ms)).mem_iff.mp he)
  have hEndMem : (⟨m1.input_end_pos, EventKind.endK, m1⟩ : Ev) ∈
      List.insertionSort evLe (eventsOf ms) :=
    (List.perm_insertionSort evLe (eventsOf ms)).mem_iff.mpr
      (eventsOf_end_mem ms m1 h1)
  have hV0 : (∃ f ∈ List.insertionSort evLe (eventsOf ms),
      f.kind = EventKind.startK ∧ f.m = m1) →
      ∃ f ∈ List.insertionSort evLe (eventsOf ms),
        f.kind = EventKind.endK ∧ f.m = m1 :=
    fun _ => ⟨_, hEndMem, rfl, rfl⟩
  unfold split_text_into_segments
  rcases hK : List.insertionSort evLe (eventsOf ms) with _ | ⟨e, tail⟩
  · rw [presweep_nil]
    intro seg hseg
    simp only [sweep] at hseg
    by_cases h : (0 : Int) < (content.length : Int)
    · rw [if_pos h] at hseg
      rw [List.mem_singleton] at hseg
      subst hseg
      simp
    · rw [if_neg h] at hseg
      simp at hseg
  · rw [hK] at hsort hok hV0
    rw [presweep_cons]
    intro seg hseg
    by_cases hpe : 0 < e.pos
    · rw [if_pos hpe] at hseg
      rcases List.mem_cons.mp hseg with rfl | hseg2
      · simp
      · exact sweep_safe content m1 m2 hne hlt hje (e :: tail) hsort hok e.pos
          [] List.nodup_nil (by simp) (by simp) (by simp) hV0 seg hseg2
    · rw [if_neg hpe] at hseg
      exact sweep_safe content m1 m2 hne hlt hje (e :: tail) hsort hok 0
        [] List.nodup_nil (by simp) (by simp) (by simp) hV0 seg hseg

/-- The single-character match of the C6 counterexample: inclusive range
5..5 of the document, one character, a valid record. -/
def c6m1 : PlagiarismMatch := ⟨['f'], 5, 5, ['f'], 0, 0, ['r'], 1⟩

/-- The second match of the C6 counterexample, starting exactly where
`c6m1` ends. -/
def c6m2 : PlagiarismMatch :=
  ⟨['f', 'g', 'h', 'i', 'j'], 5, 9, ['f', 'g', 'h', 'i', 'j'], 0, 4, ['r'], 1⟩

/-- Counterexample for claim C6 as stated: `c6m1` ends exactly where `c6m2`
starts, yet a segment lists both matches together.  The end event of the
one-character match `c6m1` is sorted before its own start event, so the
removal is a no-op and the match stays active alongside `c6m2`. -/
theorem segment_junction_counterexample :
    c6m1 ∈ [c6m1, c6m2] ∧ c6m2 ∈ [c6m1, c6m2] ∧
    c6m1.input_end_pos = c6m2.input_start_pos ∧
    ∃ seg ∈ split_text_into_segments "abcdefghij".toList [c6m1, c6m2],
      c6m1 ∈ seg.matchList ∧ c6m2 ∈ seg.matchList := by decide

/-- First match of the C6 witness, spanning more than one character. -/
def c6w1 : PlagiarismMatch :=
  ⟨['c', 'd', 'e', 'f'], 2, 5, ['c', 'd', 'e', 'f'], 0, 3, ['r'], 1⟩

/-- Second match of the C6 witness, starting exactly where `c6w1` ends. -/
def c6w2 : PlagiarismMatch :=
  ⟨['f', 'g', 'h', 'i'], 5, 8, ['f', 'g', 'h', 'i'], 0, 3, ['r'], 1⟩

/-- Witness for C6 (amended) at a concrete junction pair. -/
theorem segments_junction_disjoint_witness :
    (c6w1 ∈ [c6w1, c6w2] ∧ c6w2 ∈ [c6w1, c6w2] ∧
      c6w1.input_end_pos = c6w2.input_start_pos ∧
      c6w1.input_start_pos < c6w1.input_end_pos) ∧
    ∀ seg ∈ split_text_into_segments "abcdefghij".toList [c6w1, c6w2],
      ¬ (c6w1 ∈ seg.matchList ∧ c6w2 ∈ seg.matchList) :=
  ⟨⟨by decide, by decide, by decide, by decide⟩,
    segments_junction_disjoint "abcdefghij".toList [c6w1, c6w2] c6w1 c6w2
      (by decide) (by decide) (by decide) (by decide)⟩
